import Mathlib

/-!
Verification of the FuzzySearch scoring engine.

This file gives a shallow embedding of the scoring pipeline of the
FuzzySearch library (score.js, search.js, optional/highlight.js and the
token-packing / store helpers) and proves or refutes the frozen claims
about it.  JavaScript strings are modelled as `List Char`; JavaScript
32-bit integer semantics (`ToInt32`, shift-count masking, two's
complement wrap-around) are modelled on `Nat` residues modulo `2^32`;
floating-point score arithmetic is modelled exactly over `ℚ`.
-/

namespace FuzzyVerify

/- Batteries marks the ℚ field operations `@[irreducible]`; re-allow
unfolding so that concrete score values can be settled by `decide`. -/
attribute [local semireducible] Rat.mul Rat.add Rat.sub Rat.inv

abbrev Str := List Char

/-! ### JavaScript 32-bit integer arithmetic

JS bitwise operators coerce their operands with `ToInt32` and the result
is again a 32-bit value.  We keep every value as its unsigned residue in
`[0, 2^32)`; signed interpretation only matters for `>>`, which the
source only applies to values whose bit 31 is clear (argued at the use
sites), so it coincides with `>>>`. -/

def W32 : ℕ := 4294967296

def wrap (x : ℕ) : ℕ := x % W32

def jsAdd (x y : ℕ) : ℕ := (x + y) % W32

/-- Two's-complement subtraction on unsigned residues. -/
def jsSub (x y : ℕ) : ℕ := (x % W32 + (W32 - y % W32)) % W32

def jsAnd (x y : ℕ) : ℕ := Nat.land x y

def jsOr (x y : ℕ) : ℕ := Nat.lor x y

/-- JS `~x` on the unsigned residue. -/
def jsNot (x : ℕ) : ℕ := (W32 - 1) - x % W32

/-- JS `x << k`: the shift count is taken mod 32. -/
def jsShl (x k : ℕ) : ℕ := (x <<< (k % 32)) % W32

/-- JS `x >>> k`: the shift count is taken mod 32. -/
def jsShr (x k : ℕ) : ℕ := (x % W32) >>> (k % 32)

/-! ### Alphabet builders (part_005 / FuzzySearch.js)

`bitVector` records each character position of a token as one bit
(starting at `offset`); `posVector` records positions as an increasing
list terminated by `Infinity` (modelled as `⊤ : WithTop ℕ`).  A key is
present in a JS bit map iff its value is non-zero (every insertion ORs in
a non-zero power of two), so we model the bit map as a total function to
`ℕ` with `0` meaning "absent". -/

abbrev Pos := WithTop ℕ

def bitVector (token : Str) (m : Char → ℕ) (offset : ℕ) : Char → ℕ :=
  (token.enum).foldl
    (fun acc p => fun c => if c = p.2 then jsOr (acc c) (jsShl 1 (offset + p.1)) else acc c) m

/-- Occurrence positions of `c` in `a`, in increasing order. -/
def posList (a : Str) (c : Char) : List ℕ :=
  a.enum.filterMap (fun p => if p.2 = c then some p.1 else none)

/-- Position-list alphabet with the `Infinity` sentinel; `none` = key absent. -/
def posVector (a : Str) : Char → Option (List Pos) :=
  fun c => if c ∈ a then some ((posList a c).map (fun i => (i : Pos)) ++ [⊤]) else none

/-- A JS alphabet map is dynamically either a bit map or a position map. -/
inductive AlphaMap where
  | bit (f : Char → ℕ)
  | pos (f : Char → Option (List Pos))

def alphabet (t : Str) : AlphaMap :=
  if t.length > 32 then .pos (posVector t) else .bit (bitVector t (fun _ => 0) 0)

def mapAlphabet (tokens : List Str) : List AlphaMap := tokens.map alphabet

/-- Bits stored for `c` (0 when the map is a position map: coercing a JS
array of two or more numbers with `ToInt32` yields 0, and position lists
always carry at least one position plus the sentinel). -/
def AlphaMap.bits : AlphaMap → Char → ℕ
  | .bit f, c => f c
  | .pos _, _ => 0

/-! ### Common prefix scan (score.js lines 50-55) -/

def commonPrefixLen : Str → Str → ℕ
  | x :: xs, y :: ys => if x = y then commonPrefixLen xs ys + 1 else 0
  | _, _ => 0

/-! ### The popcount of score.js lines 90-92 (bit tricks) -/

def popcountJs (s : ℕ) : ℕ :=
  let s1 := jsSub s (jsAnd (jsShr s 1) 0x55555555)
  let s2 := jsAdd (jsAnd s1 0x33333333) (jsAnd (jsShr s1 2) 0x33333333)
  (wrap ((jsAnd (jsAdd s2 (jsShr s2 4)) 0x0F0F0F0F) * 0x01010101)) >>> 24

/-- Kernighan popcount loop of score_pack (lines 174-177).  The JS loop
clears one set bit per iteration, so 33 fuel steps cover every 32-bit
value; the fuel only makes the recursion structural. -/
def popLoop : ℕ → ℕ → ℕ
  | 0, _ => 0
  | f + 1, s => if s = 0 then 0 else popLoop f (s &&& (s - 1)) + 1

/-! ### Reference O(m·n) dynamic-programming LCS

The commented-out reference implementation at the bottom of score.js:
`C[i][j] = (a[i]===b[j]) ? C[i-1][j-1]+1 : max(C[i][j-1], C[i-1][j])`,
computed row by row (rows have length `|b|+1`, entry `j` holding the LCS
length of the current prefix of `a` and the first `j` characters of
`b`). -/

def lcsRowGo (x : Char) : ℕ → List ℕ → Str → ℕ → List ℕ
  | _, _, [], _ => []
  | pj, pjn :: prest, y :: bs, nj =>
    let v := if x = y then pj + 1 else max nj pjn
    v :: lcsRowGo x pjn prest bs v
  | _, [], _ :: _, _ => []

def lcsRef (a b : Str) : ℕ :=
  let init := List.replicate (b.length + 1) 0
  (a.foldl (fun prev x => 0 :: lcsRowGo x (prev.headD 0) prev.tail b 0) init).getLastD 0

/-! ### Options (init.js defaults, scores over ℚ) -/

structure Options where
  bonus_match_start : ℚ := 1/2
  minimum_match : ℚ := 1
  thresh_include : ℚ := 2
  thresh_relative_to_best : ℚ := 1/2
  field_good_enough : ℚ := 20
  bonus_token_order : ℚ := 2
  bonus_position_decay : ℚ := 7/10
  score_round : ℚ := 1/10
  token_min_rel_size : ℚ := 3/5
  token_max_rel_size : ℚ := 10
  score_per_token : Bool := true
  score_test_fused : Bool := false
  score_acronym : Bool := false
  max_inners : ℕ := 0
  store_thresh : ℚ := 7/10
  token_query_max_length : ℕ := 64
  token_field_max_length : ℕ := 64
  highlight_prefix_opt : Bool := false
  highlight_bridge_gap : ℕ := 2
  token_sep : Str := [' ', '.', ',', '-', ':']
deriving Repr

/-! ### llcs_large (score.js lines 224-357)

Blocks are half-open intervals `[start, bend)` of positions where the
current DP line rises one level; the list ends with the sentinel block
`[∞, ∞)`.  In-place JS mutations (block reuse, `end++`, `start++`) are
rendered functionally: the reuse branch (`block_size === 1`) and the
fresh-allocation branch build the same block value.  `last_end` starts
at `-1`; we model it as `Option Pos` with `none` standing for `-1`
(every JS comparison against `-1` at these sites is false). -/

structure Block where
  start : Pos
  bend : Pos
deriving Repr, DecidableEq

/-- JS `block_end - block_start > 1` including the NaN- and
Infinity-valued cases (`Inf - Inf` is NaN, all NaN comparisons false;
`Inf - finite` is `Inf > 1`). -/
def sizeGt1 (b : Block) : Bool :=
  if b.start = ⊤ then false
  else if b.bend = ⊤ then true
  else decide (b.start + 1 < b.bend)

/-- JS `block_end - block_start === 1` (false on any non-finite block). -/
def sizeEq1 (b : Block) : Bool :=
  if b.start = ⊤ then false
  else if b.bend = ⊤ then false
  else decide (b.bend = b.start + 1)

/-- The `while (match_pos < last_end) match_pos = match_list[++match_index]`
advance; the position lists end in the `⊤` sentinel so the loop always
stops there (reading past the array would yield `undefined`, whose
comparisons are false — modelled by stopping with `⊤`). -/
def advanceLoop (le : Pos) : Pos → List Pos → Pos × List Pos
  | mpos, rest =>
    if mpos < le then
      match rest with
      | [] => (⊤, [])
      | r :: rs => advanceLoop le r rs
  else (mpos, rest)

/-- JS `current_line[line_index].end++` (no-op on an empty line, which the
source never reaches because every earlier branch has pushed a block). -/
def extendLast (l : List Block) : List Block :=
  match l.reverse with
  | [] => []
  | b :: rest => (⟨b.start, b.bend + 1⟩ :: rest).reverse

/-- One pass of the inner `while (++block_index < nb_blocks)` loop.
Returns the new line so far, the `block_start` of the last block read,
the final block object (as mutated), and the final `match_pos`. -/
def lineLoop : List Block → Pos → List Pos → Option Pos → Option (Pos × Block) →
    List Block → List Block × Option (Pos × Block) × Pos
  | [], mpos, _, _, lastB, cur => (cur, lastB, mpos)
  | b :: rest, mpos0, ms0, prevEnd, _, cur =>
    let st := match prevEnd with
      | none => (mpos0, ms0)
      | some le => advanceLoop le mpos0 ms0
    let mpos := st.1
    let ms := st.2
    let bs := b.start
    let be := b.bend
    if bs ≤ mpos then
      lineLoop rest mpos ms (some be) (some (bs, b)) (cur ++ [b])
    else
      -- dominant match
      let hitEnd : Bool := match prevEnd with
        | none => false
        | some le => decide (mpos = le)
      let cur1 := if hitEnd then extendLast cur else cur ++ [⟨mpos, mpos + 1⟩]
      let obj1 : Block := if hitEnd then b else if sizeEq1 b then ⟨mpos, mpos + 1⟩ else b
      let cur2 := if sizeGt1 b then cur1 ++ [⟨bs + 1, be⟩] else cur1
      let obj2 : Block := if sizeGt1 b then ⟨bs + 1, be⟩ else obj1
      lineLoop rest mpos ms (some be) (some (bs, obj2)) cur2

/-- One line of llcs_large: process all blocks against the match list of
the current character of `b`; the returned flag is the final
`block_start > match_pos` test that appends the sentinel and bumps
`lcs_len`.  (`match_list[0]` is always defined: position lists are
non-empty.) -/
def llcsLine (matchList : List Pos) (lastLine : List Block) : List Block × Bool :=
  match matchList with
  | [] => (lastLine, false)
  | m0 :: ms =>
    let r := lineLoop lastLine m0 ms none none []
    match r.2.1 with
    | none => (r.1, false)
    | some (bs, obj) =>
      if bs > r.2.2 then (r.1 ++ [obj], true) else (r.1, false)

def llcsLarge (b : Str) (aMap : Char → Option (List Pos)) (pfx : ℕ) : ℕ :=
  let init : List Block := if pfx > 0 then [⟨0, (pfx : ℕ∞)⟩, ⟨⊤, ⊤⟩] else [⟨⊤, ⊤⟩]
  let step := fun (st : List Block × ℕ) (c : Char) =>
    match aMap c with
    | none => st
    | some ml =>
      let r := llcsLine ml st.1
      (r.1, st.2 + if r.2 then 1 else 0)
  ((b.drop pfx).foldl step (init, pfx)).2

/-! ### score_map (score.js lines 36-97) -/

/-- The `(lcs_len, prefix)` pair computed inside score_map (after the
`k = 0` guard): the common-prefix fast path, the llcs_large branch for
`m > 32`, or the Hyyrö bit-parallel kernel with the prefix-cleared mask.
For `m > 32` the map built by `alphabet` is always a position map; the
bit-map case is unreachable from the source's callers and modelled as
returning the prefix alone. -/
def scoreMapLcs (a b : Str) (aMap : AlphaMap) : ℕ × ℕ :=
  let m := a.length
  let n := b.length
  let k := min m n
  let pfx := commonPrefixLen a b
  if pfx = k then (pfx, pfx)
  else if m > 32 then
    (match aMap with
     | .pos f => llcsLarge b f pfx
     | .bit _ => pfx, pfx)
  else
    let mask0 := jsSub (jsShl 1 m) 1
    let S1 := (b.drop pfx).foldl
      (fun S c =>
        let mv := aMap.bits c
        if mv = 0 then S
        else
          let U := jsAnd S mv
          jsOr (jsAdd S U) (jsSub S U)) mask0
    let mask1 := jsAnd mask0 (jsNot (jsSub (jsShl 1 pfx) 1))
    (popcountJs (jsAnd (jsNot S1) mask1) + pfx, pfx)

def scoreMap (a b : Str) (aMap : AlphaMap) (o : Options) : ℚ :=
  let m := a.length
  let n := b.length
  if min m n = 0 then 0
  else
    let sz : ℚ := (m + n) / (2 * m * n)
    let lp := scoreMapLcs a b aMap
    sz * lp.1 * lp.1 + o.bonus_match_start * lp.2

/-- FuzzySearch.prototype.score (score.js lines 12-15). -/
def score (a b : Str) (o : Options) : ℚ := scoreMap a b (alphabet a) o

/-! ### PackInfo and score kernels over packed tokens -/

structure PackInfo where
  tokens : List Str
  map : AlphaMap
  gate : ℕ

/-- Key presence plus stored bits, as score_pack sees them: for a bit map
the key is present iff the stored bits are non-zero; for a position map
the key may be present but `S & aMap[c]` coerces the position array with
`ToInt32`, yielding 0 (position lists always hold the sentinel plus at
least one entry). -/
def AlphaMap.memBits : AlphaMap → Char → Option ℕ
  | .bit f, c => if f c = 0 then none else some (f c)
  | .pos f, c => (f c).map (fun _ => 0)

/-- FuzzySearch.score_single (score.js lines 108-114). -/
def score_single (p : PackInfo) (token : Str) (o : Options) : ℚ :=
  let field_tok := p.tokens.headD []
  let m := field_tok.length
  let n := token.length
  if (n : ℚ) < o.token_min_rel_size * m ∨ (n : ℚ) > o.token_max_rel_size * m then 0
  else scoreMap field_tok token p.map o

/-- Per-slot extraction loop of score_pack (score.js lines 152-184).
`S` is the negated final bit-state, `n` the field-token length. -/
def scorePackLoop (o : Options) (S n : ℕ) (field_token : Str) :
    List Str → ℕ → List ℚ
  | [], _ => []
  | tok :: rest, offset =>
    let m := tok.length
    if (n : ℚ) < o.token_min_rel_size * m ∨ (n : ℚ) > o.token_max_rel_size * m then
      0 :: scorePackLoop o S n field_token rest (offset + m)
    else
      let lp : ℕ × ℕ :=
        if tok = field_token then (m, m)
        else
          let pfx := commonPrefixLen tok field_token
          let Sm := jsShr (jsAnd (jsShr S offset) (jsSub (jsShl 1 m) 1)) pfx
          (pfx + popLoop 33 Sm, pfx)
      let sz : ℚ := (m + n) / (2 * m * n)
      (sz * lp.1 * lp.1 + o.bonus_match_start * lp.2) ::
        scorePackLoop o S n field_token rest (offset + m)

/-- FuzzySearch.score_pack (score.js lines 127-188): gated Hyyrö update
`S := ((S & ZM) + (U & ZM)) | (S - U)` over the whole field token, then
per-slot popcounts. -/
def score_pack (p : PackInfo) (field_token : Str) (o : Options) : List ℚ :=
  let ZM := p.gate % W32
  let S1 := field_token.foldl
    (fun S c =>
      match p.map.memBits c with
      | none => S
      | some mv =>
        let U := jsAnd S mv
        jsOr (jsAdd (jsAnd S ZM) (jsAnd U ZM)) (jsSub S U)) 0xFFFFFFFF
  scorePackLoop o (jsNot S1) field_token.length field_token p.tokens 0

/-! ### pack_tokens (part_005 lines 321-377 / FuzzySearch.js) -/

structure GroupAcc where
  toks : List Str
  map : Char → ℕ
  offset : ℕ
  gate : ℕ

/-- The inner `while (++token_index < nb_tokens)` loop: admit tokens into
the current group until one is large (`l ≥ 32`, closing the group and
emitting a single-token position-list group) or does not fit
(`l + offset ≥ 32`, pushed back for the next group).  The gate gains
`((1 << (l - 1)) - 1) << offset`; JS masks the shift count to 5 bits, so
`l - 1` acts as `(l + 31) % 32` (relevant only for `l = 0`). -/
def packGroup : List Str → GroupAcc → GroupAcc × Option PackInfo × List Str
  | [], acc => (acc, none, [])
  | t :: rest, acc =>
    if t.length ≥ 32 then
      (acc, some ⟨[t], .pos (posVector t), 0xFFFFFFFF⟩, rest)
    else if t.length + acc.offset ≥ 32 then
      (acc, none, t :: rest)
    else
      packGroup rest
        ⟨acc.toks ++ [t], bitVector t acc.map acc.offset, acc.offset + t.length,
          jsOr acc.gate (jsShl (jsSub (jsShl 1 ((t.length + 31) % 32)) 1) acc.offset)⟩

/-- Outer loop of pack_tokens.  Each outer iteration consumes at least one
token (the first token of a fresh group always fits or is large), so
fuel `tokens.length` makes the recursion structural without changing the
result. -/
def packOuter : ℕ → List Str → List PackInfo
  | 0, _ => []
  | _ + 1, [] => []
  | f + 1, ts =>
    let r := packGroup ts ⟨[], fun _ => 0, 0, 0⟩
    (if r.1.toks ≠ [] then [⟨r.1.toks, .bit r.1.map, r.1.gate⟩] else []) ++
      r.2.1.toList ++ packOuter f r.2.2

def pack_tokens (tokens : List Str) : List PackInfo :=
  packOuter tokens.length tokens

/-! ### Helper lemmas -/

theorem commonPrefixLen_self (t : Str) : commonPrefixLen t t = t.length := by
  induction t with
  | nil => rfl
  | cons x xs ih => simp [commonPrefixLen, ih]

theorem scorePackLoop_guard_zero (o : Options) (S n : ℕ) (ft : Str)
    (toks : List Str) (off k : ℕ) (qt : Str) (hk : toks.get? k = some qt)
    (hg : (n : ℚ) < o.token_min_rel_size * qt.length ∨
      (n : ℚ) > o.token_max_rel_size * qt.length) :
    (scorePackLoop o S n ft toks off).get? k = some 0 := by
  induction toks generalizing off k with
  | nil => simp at hk
  | cons t rest ih =>
    cases k with
    | zero =>
      simp only [List.get?] at hk
      cases hk
      simp only [scorePackLoop, if_pos hg, List.get?]
    | succ k' =>
      simp only [List.get?] at hk
      simp only [scorePackLoop]
      by_cases hg0 : (n : ℚ) < o.token_min_rel_size * t.length ∨
          (n : ℚ) > o.token_max_rel_size * t.length
      · simpa only [if_pos hg0, List.get?] using ih (off + t.length) k' hk
      · simpa only [if_neg hg0, List.get?] using ih (off + t.length) k' hk

/-! ### Claim C1: short kernel vs reference DP LCS -/

/-- C1.  The claim states that for `1 ≤ |a| ≤ 32` the LCS length computed
by score_map (common-prefix scan, bit-parallel loop started at the
prefix, popcount under the prefix-cleared mask) equals the reference DP
LCS.  It does not: for `a = "xwy"`, `b = "xyx"` the scan yields prefix 1
and the masked kernel then counts matches of the full pattern against
`b` minus matches of the prefix against it, giving `llcs = 1`, while the
DP LCS is 2 (`"xy"`); the prefix character of `b` can pair with a later
occurrence, which the skipped-prefix kernel cannot see.  (At `|a| = 32`
the claim also fails: JS evaluates `1 << 32` as `1`, so the "full mask"
is 0 and the kernel returns the bare prefix.) -/
theorem C1_short_kernel_not_dp :
    (scoreMapLcs ['x', 'w', 'y'] ['x', 'y', 'x'] (alphabet ['x', 'w', 'y'])).1 = 1 ∧
    lcsRef ['x', 'w', 'y'] ['x', 'y', 'x'] = 2 ∧
    (['x', 'w', 'y'] : Str).length ≤ 32 := by
  refine ⟨by decide, by decide, by decide⟩

/-- C1 auxiliary: the `|a| = 32` boundary case the claim singles out —
the kernel mask `(1<<32)-1` collapses to 0, so the computed LCS is 0
although the DP LCS of these two strings is 31. -/
theorem C1_mask32_not_dp :
    (scoreMapLcs ((List.range 32).map (fun i => Char.ofNat (97 + i)))
        ((List.range 31).map (fun i => Char.ofNat (98 + i)))
        (alphabet ((List.range 32).map (fun i => Char.ofNat (97 + i))))).1 = 0 ∧
    lcsRef ((List.range 32).map (fun i => Char.ofNat (97 + i)))
        ((List.range 31).map (fun i => Char.ofNat (98 + i))) = 31 := by
  refine ⟨by decide, by decide⟩

/-! ### Claim C2: packed kernel vs single-token kernel -/

/-- C2.  The claim states that each per-slot score of score_pack equals
the score score_map returns for the packed token against the same field
token.  At the legal packing `pack_tokens ["xwy", "ab"]` (one group, two
slots) against field token `"xyx"`, slot 0 gets `11/6` from score_pack
(which runs the gated kernel over all of `b` and therefore counts the
true LCS 2) while score_map returns `5/6` (its prefix-skipping kernel
undercounts the LCS as 1), so the two kernels disagree. -/
theorem C2_pack_slot_ne_single :
    (score_pack ((pack_tokens [['x', 'w', 'y'], ['a', 'b']]).headD ⟨[], .bit (fun _ => 0), 0⟩)
        ['x', 'y', 'x'] {}).headD 0 = 11/6 ∧
    scoreMap ['x', 'w', 'y'] ['x', 'y', 'x'] (alphabet ['x', 'w', 'y']) {} = 5/6 ∧
    ((11/6 : ℚ) = 5/6 → False) := by
  refine ⟨by decide, by decide, by decide⟩

/-! ### Claim C3: llcs_large vs reference DP LCS -/

/-- C3.  The claim states that for `|a| > 32` llcs_large returns exactly
the reference DP LCS.  It does not: with `a = "cxc" ++ 30·"z"` (length
33) and `b = "xcc"`, called with the position-list alphabet of `a` and
common-prefix length 0, llcs_large returns 3 but the DP LCS is 2.  The
slip: when the first dominant match of a line falls exactly at the end
of the previous *old* block, the code extends the last block of the
*new* line (`current_line[line_index].end++`) even when that block does
not end there, mis-recording the rise position and over-counting later
lines. -/
theorem C3_llcs_large_not_dp :
    llcsLarge ['x', 'c', 'c'] (posVector (['c', 'x', 'c'] ++ List.replicate 30 'z')) 0 = 3 ∧
    lcsRef (['c', 'x', 'c'] ++ List.replicate 30 'z') ['x', 'c', 'c'] = 2 ∧
    (['c', 'x', 'c'] ++ List.replicate 30 'z').length = 33 ∧
    commonPrefixLen (['c', 'x', 'c'] ++ List.replicate 30 'z') ['x', 'c', 'c'] = 0 := by
  refine ⟨by decide, by decide, by decide, by decide⟩

/-! ### Claim C4: score of a token against itself -/

/-- C4 counterexample.  The claim (spec §8.1) states
`score(t,t) = 1 + bonus_match_start · |t|`; with the default
`bonus_match_start = 1/2` and `t = "ab"` that predicts 2, but the code
returns `sz · |t|² + bonus · |t| = |t| + bonus · |t| = 3` (the spec
mis-simplifies `((2|t|)/(2|t|²)) · |t|²` to 1 instead of `|t|`). -/
theorem C4_self_score_counterexample :
    score ['a', 'b'] ['a', 'b'] {} = 3 ∧
    (1 : ℚ) + ({} : Options).bonus_match_start * 2 = 2 ∧ ((3 : ℚ) = 2 → False) := by
  refine ⟨by decide, by decide, by decide⟩

theorem scoreMapLcs_self (t : Str) (m : AlphaMap) :
    scoreMapLcs t t m = (t.length, t.length) := by
  unfold scoreMapLcs
  simp [commonPrefixLen_self]

/-- C4 amended: for every non-empty token `t` and options `o`,
`score(t, t) = |t| + bonus_match_start · |t|` (the `prefix === k` early
return of score_map with `m = n = llcs = |t|`). -/
theorem C4_self_score (t : Str) (o : Options) (h : t ≠ []) :
    score t t o = t.length + o.bonus_match_start * t.length := by
  have hm : t.length ≠ 0 := by simpa [List.length_eq_zero] using h
  have hq : (t.length : ℚ) ≠ 0 := Nat.cast_ne_zero.mpr hm
  unfold score scoreMap
  rw [scoreMapLcs_self]
  simp only [min_self, if_neg hm]
  field_simp
  ring

/-- Witness for C4 at `t = "a"` with default options. -/
theorem C4_self_score_witness :
    score ['a'] ['a'] {} =
      ((['a'] : Str).length : ℚ) + ({} : Options).bonus_match_start * ((['a'] : Str).length : ℚ) :=
  C4_self_score ['a'] {} (by decide)

/-! ### Claim C5: relative-size guard -/

/-- C5 counterexample.  The claim states every scoring entry point
returns 0 when `n > token_max_rel_size · m`.  `FuzzySearch.prototype.score`
(which calls score_map directly) has no such guard: with default options
(`token_max_rel_size = 10`), `a = "ab"` (m = 2) and a 21-character `b`
starting with `"ab"`, the guard bound `10·2 = 20` is exceeded yet the
score is `44/21 ≠ 0`. -/
theorem C5_guard_counterexample :
    ((((['a', 'b'] ++ List.replicate 19 'z') : Str).length : ℚ) >
      ({} : Options).token_max_rel_size * (['a', 'b'] : Str).length) ∧
    score ['a', 'b'] (['a', 'b'] ++ List.replicate 19 'z') {} = 44/21 ∧
    ((44/21 : ℚ) = 0 → False) := by
  refine ⟨by decide, by decide, by decide⟩

/-- C5 amended: the relative-size guard is applied by the pack entry
points — score_single returns 0 when the field/query length ratio is out
of range, and every slot of score_pack whose packed token violates the
ratio gets score 0 — but not by score_map itself (see the
counterexample). -/
theorem C5_rel_size_guard (p : PackInfo) (tok : Str) (o : Options) :
    (((tok.length : ℚ) < o.token_min_rel_size * (p.tokens.headD []).length ∨
      (tok.length : ℚ) > o.token_max_rel_size * (p.tokens.headD []).length) →
      score_single p tok o = 0) ∧
    (∀ k qt, p.tokens.get? k = some qt →
      ((tok.length : ℚ) < o.token_min_rel_size * qt.length ∨
        (tok.length : ℚ) > o.token_max_rel_size * qt.length) →
      (score_pack p tok o).get? k = some 0) := by
  constructor
  · intro hg
    unfold score_single
    simp only [if_pos hg]
  · intro k qt hk hg
    unfold score_pack
    exact scorePackLoop_guard_zero _ _ _ _ _ _ _ qt hk hg

/-- Witness for C5 with a single-token pack of `"ab"` against a
21-character field token. -/
theorem C5_rel_size_guard_witness :
    score_single ⟨[['a', 'b']], alphabet ['a', 'b'], 3⟩
        (['a', 'b'] ++ List.replicate 19 'z') {} = 0 ∧
    (score_pack ⟨[['a', 'b']], alphabet ['a', 'b'], 3⟩
        (['a', 'b'] ++ List.replicate 19 'z') {}).get? 0 = some 0 :=
  ⟨(C5_rel_size_guard ⟨[['a', 'b']], alphabet ['a', 'b'], 3⟩
      (['a', 'b'] ++ List.replicate 19 'z') {}).1 (by decide),
   (C5_rel_size_guard ⟨[['a', 'b']], alphabet ['a', 'b'], 3⟩
      (['a', 'b'] ++ List.replicate 19 'z') {}).2 0 ['a', 'b'] (by decide) (by decide)⟩

/-! ### Claim C6: pack_tokens -/

def sumLen (ts : List Str) : ℕ := (ts.map List.length).sum

/-- The gate a group accumulates: each token of length `l` at bit-offset
`o` contributes the bits at positions `[o, o + l - 1)` — all positions of
the token except its top bit. -/
def gateSpec : List Str → ℕ → ℕ → ℕ
  | [], _, g => g
  | t :: r, o, g => gateSpec r (o + t.length) (g ||| ((2 ^ (t.length - 1) - 1) * 2 ^ o))

/-- A group of short tokens packed together: non-empty, every token
shorter than the word, total length strictly below the word size (the
code admits a token only while `offset + l < 32`), and the gate exactly
the union of the per-token bit ranges. -/
def SmallGroup (g : PackInfo) : Prop :=
  g.tokens ≠ [] ∧ (∀ t ∈ g.tokens, t.length < 32) ∧ sumLen g.tokens < 32 ∧
    g.gate = gateSpec g.tokens 0 0

/-- A single-token group for a token of length ≥ 32: all-ones gate and a
position-list alphabet. -/
def LargeGroup (g : PackInfo) : Prop :=
  ∃ t, g.tokens = [t] ∧ 32 ≤ t.length ∧ g.gate = 4294967295 ∧ g.map = .pos (posVector t)

theorem gateBits_eq (l o : ℕ) (h1 : 1 ≤ l) (h2 : l + o < 32) :
    jsShl (jsSub (jsShl 1 ((l + 31) % 32)) 1) o = (2 ^ (l - 1) - 1) * 2 ^ o := by
  have hW2 : (1 : ℕ) < W32 := by norm_num [W32]
  have hl31 : (l + 31) % 32 = l - 1 := by omega
  have hml : (l - 1) % 32 = l - 1 := Nat.mod_eq_of_lt (by omega)
  have hpW : 2 ^ (l - 1) < W32 := by
    calc 2 ^ (l - 1) ≤ 2 ^ 30 := Nat.pow_le_pow_right (by norm_num) (by omega)
      _ < W32 := by norm_num [W32]
  have h1p : 1 ≤ 2 ^ (l - 1) := Nat.one_le_two_pow
  have hs1 : jsShl 1 ((l + 31) % 32) = 2 ^ (l - 1) := by
    rw [hl31]
    unfold jsShl
    rw [hml, Nat.shiftLeft_eq, one_mul, Nat.mod_eq_of_lt hpW]
  rw [hs1]
  have hsub : jsSub (2 ^ (l - 1)) 1 = 2 ^ (l - 1) - 1 := by
    unfold jsSub
    rw [Nat.mod_eq_of_lt hpW, Nat.mod_eq_of_lt hW2]
    have hrw : 2 ^ (l - 1) + (W32 - 1) = W32 + (2 ^ (l - 1) - 1) := by omega
    rw [hrw, Nat.add_mod_left, Nat.mod_eq_of_lt (by omega)]
  rw [hsub]
  unfold jsShl
  rw [Nat.mod_eq_of_lt (show o < 32 by omega), Nat.shiftLeft_eq]
  apply Nat.mod_eq_of_lt
  calc (2 ^ (l - 1) - 1) * 2 ^ o < 2 ^ (l - 1) * 2 ^ o :=
        mul_lt_mul_of_pos_right (by omega) (Nat.pos_pow_of_pos o (by norm_num))
    _ = 2 ^ (l - 1 + o) := (pow_add 2 (l - 1) o).symm
    _ ≤ 2 ^ 31 := Nat.pow_le_pow_right (by norm_num) (by omega)
    _ < W32 := by norm_num [W32]

theorem packGroup_spec (ts : List Str) (acc acc' : GroupAcc) (lg : Option PackInfo)
    (rest : List Str) (heq : packGroup ts acc = (acc', lg, rest))
    (hne : ∀ t ∈ ts, t ≠ []) (hoff : acc.offset < 32) :
    ∃ adm, (∀ t ∈ adm, t.length < 32) ∧ acc'.toks = acc.toks ++ adm ∧
      acc'.offset = acc.offset + sumLen adm ∧ acc'.offset < 32 ∧
      acc'.gate = gateSpec adm acc.offset acc.gate ∧
      ((lg = none ∧ ts = adm ++ rest ∧
          (rest = [] ∨ (32 ≤ acc'.offset + (rest.headD []).length ∧ (rest.headD []).length < 32))) ∨
        (∃ t, lg = some ⟨[t], .pos (posVector t), 4294967295⟩ ∧ 32 ≤ t.length ∧
          ts = adm ++ t :: rest)) := by
  induction ts generalizing acc with
  | nil =>
    simp only [packGroup, Prod.mk.injEq] at heq
    obtain ⟨h1, h2, h3⟩ := heq
    exact ⟨[], by simp, by simp [← h1], by simp [← h1, sumLen], by simpa [← h1] using hoff,
      by simp [← h1, gateSpec], Or.inl ⟨h2.symm, by simp [← h3], Or.inl h3.symm⟩⟩
  | cons t ts ih =>
    by_cases hl : t.length ≥ 32
    · simp only [packGroup, if_pos hl, Prod.mk.injEq] at heq
      obtain ⟨h1, h2, h3⟩ := heq
      exact ⟨[], by simp, by simp [← h1], by simp [← h1, sumLen], by simpa [← h1] using hoff,
        by simp [← h1, gateSpec],
        Or.inr ⟨t, h2.symm, hl, by simp [← h3]⟩⟩
    · by_cases hfit : t.length + acc.offset ≥ 32
      · simp only [packGroup, if_neg hl, if_pos hfit, Prod.mk.injEq] at heq
        obtain ⟨h1, h2, h3⟩ := heq
        subst h1
        refine ⟨[], by simp, by simp, by simp [sumLen], by simpa using hoff,
          by simp [gateSpec], Or.inl ⟨h2.symm, by simp [← h3], Or.inr ?_⟩⟩
        subst h3
        constructor
        · simp only [List.headD_cons]
          omega
        · simpa using hl
      · simp only [packGroup, if_neg hl, if_neg hfit] at heq
        have hne' : ∀ u ∈ ts, u ≠ [] := fun u hu => hne u (List.mem_cons_of_mem _ hu)
        have hoff' : acc.offset + t.length < 32 := by omega
        obtain ⟨adm, hadm, htoks, hoffeq, hoffb, hgate, hcase⟩ :=
          ih _ heq hne' (by simpa using hoff')
        have hlen1 : 1 ≤ t.length := by
          have := hne t (List.mem_cons_self t ts)
          cases t with
          | nil => exact absurd rfl this
          | cons c cs => simp
        refine ⟨t :: adm, ?_, ?_, ?_, hoffb, ?_, ?_⟩
        · intro u hu
          rcases List.mem_cons.mp hu with h | h
          · subst h; omega
          · exact hadm u h
        · simpa [List.append_assoc] using htoks
        · simp only [sumLen, List.map_cons, List.sum_cons] at hoffeq ⊢
          simp only [hoffeq]
          ring
        · simp only [gateSpec, hgate]
          congr 1
          have : jsOr acc.gate (jsShl (jsSub (jsShl 1 ((t.length + 31) % 32)) 1) acc.offset) =
              acc.gate ||| ((2 ^ (t.length - 1) - 1) * 2 ^ acc.offset) := by
            rw [gateBits_eq t.length acc.offset hlen1 (by omega)]
            rfl
          simpa using this
        · rcases hcase with ⟨hn, hts, hrest⟩ | ⟨u, hlg, hul, hts⟩
          · refine Or.inl ⟨hn, by simp [hts], ?_⟩
            rcases hrest with h | h
            · exact Or.inl h
            · exact Or.inr h
          · exact Or.inr ⟨u, hlg, hul, by simp [hts]⟩

/-- The greedy-maximality relation between consecutive groups: a small
group is closed only because the next token is large or does not fit. -/
def packRel (g g' : PackInfo) : Prop :=
  (∃ t, g.tokens = [t] ∧ 32 ≤ t.length) ∨ 32 ≤ (g'.tokens.headD []).length ∨
    32 ≤ sumLen g.tokens + (g'.tokens.headD []).length

theorem head_tokens_eq (gs : List PackInfo) (rest : List Str)
    (hj : (gs.map PackInfo.tokens).join = rest)
    (hne : ∀ g ∈ gs, g.tokens ≠ []) :
    ∀ g' ∈ gs.head?, g'.tokens.headD [] = rest.headD [] := by
  cases gs with
  | nil => intro g' hg'; simp at hg'
  | cons g gs' =>
    intro g' hg'
    simp only [List.head?_cons, Option.mem_def, Option.some.injEq] at hg'
    subst hg'
    have hgne := hne g (List.mem_cons_self _ _)
    cases htk : g.tokens with
    | nil => exact absurd htk hgne
    | cons u us =>
      rw [← hj]
      simp [htk]

theorem packOuter_spec (f : ℕ) (ts : List Str) (hf : ts.length ≤ f)
    (hne : ∀ t ∈ ts, t ≠ []) :
    ((packOuter f ts).map PackInfo.tokens).join = ts ∧
    (∀ g ∈ packOuter f ts, SmallGroup g ∨ LargeGroup g) ∧
    List.Chain' packRel (packOuter f ts) := by
  induction f generalizing ts with
  | zero =>
    have hts0 : ts = [] := List.length_eq_zero.mp (Nat.le_zero.mp hf)
    subst hts0
    exact ⟨rfl, by simp [packOuter], by simp [packOuter]⟩
  | succ f ih =>
    cases ts with
    | nil => exact ⟨rfl, by simp [packOuter], by simp [packOuter]⟩
    | cons c ts' =>
      cases hpg : packGroup (c :: ts') ⟨[], fun _ => 0, 0, 0⟩ with
      | mk acc' pr =>
      cases pr with
      | mk lg rest =>
      obtain ⟨adm, hadm, htoks, hoffeq, hoffb, hgate, hcase⟩ :=
        packGroup_spec (c :: ts') ⟨[], fun _ => 0, 0, 0⟩ acc' lg rest hpg hne (by norm_num)
      simp only at htoks hoffeq hoffb hgate
      rw [List.nil_append] at htoks
      rw [zero_add] at hoffeq
      subst htoks
      have hout : packOuter (f + 1) (c :: ts') =
          (if acc'.toks ≠ [] then [⟨acc'.toks, .bit acc'.map, acc'.gate⟩] else []) ++
            lg.toList ++ packOuter f rest := by
        simp only [packOuter, hpg]
      have hsum : sumLen acc'.toks < 32 := hoffeq ▸ hoffb
      rcases hcase with ⟨hn, hts, hrest⟩ | ⟨t, hlg, htl, hts⟩
      · -- no large token
        subst hn
        rcases hrest with hre | ⟨hge, hlt⟩
        · -- the whole input was consumed into the group
          subst hre
          rw [List.append_nil] at hts
          have tokne : acc'.toks ≠ [] := by rw [← hts]; simp
          have hsmall : SmallGroup ⟨acc'.toks, .bit acc'.map, acc'.gate⟩ :=
            ⟨tokne, hadm, hsum, hgate⟩
          have hrest0 : packOuter f ([] : List Str) = [] := by
            cases f <;> simp [packOuter]
          refine ⟨?_, ?_, ?_⟩
          · rw [hout, hrest0]
            simp [if_pos tokne, hts.symm]
          · intro g hg
            rw [hout, hrest0, if_pos tokne] at hg
            simp only [Option.toList_none, List.append_nil, List.mem_singleton] at hg
            subst hg
            exact Or.inl hsmall
          · rw [hout, hrest0, if_pos tokne]
            simp
        · -- the next token did not fit
          have tokne : acc'.toks ≠ [] := by
            intro h0
            rw [h0, sumLen, List.map_nil, List.sum_nil] at hoffeq
            omega
          have hsmall : SmallGroup ⟨acc'.toks, .bit acc'.map, acc'.gate⟩ :=
            ⟨tokne, hadm, hsum, hgate⟩
          have hflen : rest.length ≤ f := by
            have h1 : ts'.length + 1 = acc'.toks.length + rest.length := by
              simpa [List.length_append] using congrArg List.length hts
            have h2 : 1 ≤ acc'.toks.length := by
              cases h0 : acc'.toks with
              | nil => exact absurd h0 tokne
              | cons _ _ => simp
            simp only [List.length_cons] at hf
            omega
          have hnee : ∀ u ∈ rest, u ≠ [] := fun u hu =>
            hne u (hts ▸ List.mem_append_right acc'.toks hu)
          obtain ⟨ihj, ihs, ihc⟩ := ih rest hflen hnee
          have hgne : ∀ g ∈ packOuter f rest, g.tokens ≠ [] := by
            intro g hg
            rcases ihs g hg with hS | hL
            · exact hS.1
            · obtain ⟨u, hu, _⟩ := hL
              rw [hu]
              exact List.cons_ne_nil u []
          refine ⟨?_, ?_, ?_⟩
          · rw [hout, if_pos tokne]
            simpa [ihj] using hts.symm
          · intro g hg
            rw [hout, if_pos tokne] at hg
            simp only [Option.toList_none, List.append_nil, List.singleton_append,
              List.mem_cons] at hg
            rcases hg with hgl | hgr
            · subst hgl
              exact Or.inl hsmall
            · exact ihs g hgr
          · rw [hout, if_pos tokne]
            simp only [Option.toList_none, List.append_nil, List.singleton_append]
            rw [List.chain'_cons']
            refine ⟨?_, ihc⟩
            intro g' hg'
            have hhead := head_tokens_eq _ _ ihj hgne g' hg'
            right; right
            rw [hhead, ← hoffeq]
            exact hge
      · -- a large token closed the group
        subst hlg
        have hflen : rest.length ≤ f := by
          have h1 : ts'.length + 1 = acc'.toks.length + (rest.length + 1) := by
            simpa [List.length_append] using congrArg List.length hts
          simp only [List.length_cons] at hf
          omega
        have hnee : ∀ u ∈ rest, u ≠ [] := fun u hu =>
          hne u (hts ▸ List.mem_append_right acc'.toks (List.mem_cons_of_mem t hu))
        obtain ⟨ihj, ihs, ihc⟩ := ih rest hflen hnee
        have hlarge : LargeGroup ⟨[t], .pos (posVector t), 4294967295⟩ :=
          ⟨t, rfl, htl, rfl, rfl⟩
        have hchainL : List.Chain' packRel
            (⟨[t], .pos (posVector t), 4294967295⟩ :: packOuter f rest) := by
          rw [List.chain'_cons']
          exact ⟨fun g' _ => Or.inl ⟨t, rfl, htl⟩, ihc⟩
        by_cases tokne : acc'.toks = []
        · refine ⟨?_, ?_, ?_⟩
          · rw [hout, tokne]
            simpa [ihj, tokne] using hts.symm
          · intro g hg
            rw [hout, tokne] at hg
            simp only [ne_eq, not_true_eq_false, if_false, List.nil_append,
              Option.toList_some, List.singleton_append, List.mem_cons] at hg
            rcases hg with hgl | hgr
            · subst hgl
              exact Or.inr hlarge
            · exact ihs g hgr
          · rw [hout, tokne]
            simpa using hchainL
        · have hsmall : SmallGroup ⟨acc'.toks, .bit acc'.map, acc'.gate⟩ :=
            ⟨tokne, hadm, hsum, hgate⟩
          refine ⟨?_, ?_, ?_⟩
          · rw [hout, if_pos tokne]
            simpa [ihj] using hts.symm
          · intro g hg
            rw [hout, if_pos tokne] at hg
            simp only [Option.toList_some, List.singleton_append, List.cons_append,
              List.nil_append, List.mem_cons] at hg
            rcases hg with hgl | hgm | hgr
            · subst hgl
              exact Or.inl hsmall
            · subst hgm
              exact Or.inr hlarge
            · exact ihs g hgr
          · rw [hout, if_pos tokne]
            simp only [Option.toList_some, List.singleton_append, List.cons_append,
              List.nil_append]
            rw [List.chain'_cons]
            exact ⟨Or.inr (Or.inl (by simpa using htl)), hchainL⟩


/-- C6 counterexample.  The claim says a token of length `l` is admitted
into the current group iff `offset + l ≤ 32`; for two 16-character
tokens `offset + l = 32`, so the claim predicts a single two-token
group, but the code tests `l + offset >= INT_SIZE` and rejects at
exactly 32, producing two one-token groups. -/
theorem C6_admission_counterexample :
    (pack_tokens [List.replicate 16 'a', List.replicate 16 'b']).map PackInfo.tokens =
      [[List.replicate 16 'a'], [List.replicate 16 'b']] ∧
    16 + 16 ≤ 32 ∧
    ([[List.replicate 16 'a'], [List.replicate 16 'b']] ≠
      [[List.replicate 16 'a', List.replicate 16 'b']]) := by
  refine ⟨by decide, by decide, by decide⟩

/-- C6 amended: for every list of non-empty query tokens, pack_tokens
yields groups whose token lists concatenate to the input, in order;
each group is either a small group — non-empty, all tokens shorter than
32, total length < 32 (admission requires `offset + l < 32`, not
`≤ 32`), gate exactly the bits `[offset, offset + l - 1)` of each packed
token — or a single-token group for a token of length ≥ 32 with an
all-ones gate and a position-list alphabet; and packing is greedily
maximal: a small group is followed by a group whose first token is large
or does not fit. -/
theorem C6_pack_tokens_spec (ts : List Str) (h : ∀ t ∈ ts, t ≠ []) :
    ((pack_tokens ts).map PackInfo.tokens).join = ts ∧
    (∀ g ∈ pack_tokens ts, SmallGroup g ∨ LargeGroup g) ∧
    List.Chain' packRel (pack_tokens ts) :=
  packOuter_spec ts.length ts le_rfl h

/-- Witness for C6 on the token list `["ab", "cd"]`. -/
theorem C6_pack_tokens_witness :
    ((pack_tokens [['a', 'b'], ['c', 'd']]).map PackInfo.tokens).join =
      [['a', 'b'], ['c', 'd']] ∧
    (∀ g ∈ pack_tokens [['a', 'b'], ['c', 'd']], SmallGroup g ∨ LargeGroup g) ∧
    List.Chain' packRel (pack_tokens [['a', 'b'], ['c', 'd']]) :=
  C6_pack_tokens_spec [['a', 'b'], ['c', 'd']] (by decide)

/-! ### Query objects and the search loop (part_005, src/src/search.js)

In the source every child query is constructed as
`new Query(..., false, [])` — children never have children of their own —
so sub-queries are modelled by a non-recursive structure.  The mutable
per-search scratch (`score_item` per PackInfo slot and `fused_score`,
for the query and each child) is threaded explicitly as `QState`. -/

structure SubQuery where
  words : List Str
  tokens_groups : List PackInfo
  fused_str : Str
  fused_map : AlphaMap

structure QueryData where
  words : List Str
  tokens_groups : List PackInfo
  fused_str : Str
  fused_map : AlphaMap
  has_children : Bool
  children : List (Option SubQuery)

/-- Scratch of one query: `score_item` per group (one slot per packed
token) and `fused_score`; a child entry exists exactly where the query
has a child. -/
structure QState where
  groups_item : List (List ℚ)
  fused_score : ℚ
  children : List (Option (List (List ℚ) × ℚ))

/-- Query.prototype.resetItem: zero every score_item slot and
fused_score, recursively on children. -/
def resetItem (q : QueryData) : QState :=
  { groups_item := q.tokens_groups.map (fun g => g.tokens.map (fun _ => (0 : ℚ)))
    fused_score := 0
    children := if q.has_children then
        q.children.map (Option.map (fun c =>
          (c.tokens_groups.map (fun g => g.tokens.map (fun _ => (0 : ℚ))), (0 : ℚ))))
      else q.children.map (fun _ => none) }

/-- Query.prototype.scoreItem of a child query (no grandchildren). -/
def subScoreItem (gi : List (List ℚ)) (fused : ℚ) : ℚ :=
  let qs := (gi.map (fun l => l.sum)).sum
  if fused > qs then fused else qs

/-- Query.prototype.scoreItem: sum of all slot scores (or fused_score if
greater), plus the children's scoreItem. -/
def scoreItemOf (q : QueryData) (st : QState) : ℚ :=
  let qs := subScoreItem st.groups_item st.fused_score
  if q.has_children then
    qs + (st.children.map (fun oc => match oc with
      | none => (0 : ℚ)
      | some (gi, f) => subScoreItem gi f)).sum
  else qs

/-- Slot-update pass of _scoreField for one field token (search.js lines
227-243): slot `i` accepts the new score on strict improvement, or when
it is within `bonus_token_order` of the incumbent while the incumbent's
field position does not exceed slot `i-1`'s already-updated position
(`prev`, `none` for `i = 0`). -/
def slotPass (o : Options) (tkIdx : ℕ) :
    List ℚ → List ℚ → List ℕ → Option ℕ → List ℚ × List ℕ
  | sc :: scs, bf :: bfs, bi :: bis, prev =>
    let take : Bool := decide (sc > bf) ||
      (decide (bf - sc < o.bonus_token_order) &&
        (match prev with
         | none => false
         | some p => decide (bi ≤ p)))
    let bf' := if take then sc else bf
    let bi' := if take then tkIdx else bi
    let r := slotPass o tkIdx scs bfs bis (some bi')
    (bf' :: r.1, bi' :: r.2)
  | _, bfs, bis, _ => (bfs, bis)

/-- Best score and best field position per slot of one group over all
field tokens (search.js lines 221-245). -/
def groupFieldPass (o : Options) (g : PackInfo) (fieldTokens : List Str) :
    List ℚ × List ℕ :=
  (fieldTokens.enum).foldl
    (fun st p => slotPass o p.1 (score_pack g p.2 o) st.1 st.2 none)
    (g.tokens.map (fun _ => (0 : ℚ)), g.tokens.map (fun _ => 0))

/-- Accumulation loop of _scoreField (search.js lines 247-269): add each
slot's best to the field score, apply the distance-weighted order bonus
when the slot beats `minimum_match`, and raise the persistent
`score_item` slots.  Returns the final field score, the updated
`score_item` list and the final `last_index`. -/
def accumLoop (o : Options) :
    List ℚ → List ℕ → List ℚ → ℚ → ℤ → ℚ × List ℚ × ℤ
  | bf :: bfs, bi :: bis, si :: sis, fieldScore, lastIndex =>
    let sc := bf
    let fs1 := fieldScore + sc
    let upd : ℚ × ℚ × ℤ :=
      if sc > o.minimum_match then
        let d : ℤ := (bi : ℤ) - lastIndex
        let bo := o.bonus_token_order * (1 / (1 + (|d| : ℚ)))
        let bo := if d > 0 then 2 * bo else bo
        (sc + bo, fs1 + bo, (bi : ℤ))
      else (sc, fs1, lastIndex)
    let si' := if upd.1 > si then upd.1 else si
    let r := accumLoop o bfs bis sis upd.2.1 upd.2.2
    (r.1, si' :: r.2.1, r.2.2)
  | _, _, sis, fieldScore, lastIndex => (fieldScore, sis, lastIndex)

/-- FuzzySearch.prototype._scoreField (search.js lines 198-302), generic
over the query-like object (used for the root query and for tag
children): returns the field score together with the updated score_item
scratch and fused_score. -/
def scoreFieldGen (o : Options) (groups : List PackInfo) (fusedStr : Str)
    (fusedMap : AlphaMap) (fieldTokens : List Str) (gItems : List (List ℚ))
    (fusedSc : ℚ) : ℚ × List (List ℚ) × ℚ :=
  if groups.length = 0 ∨ fieldTokens.length = 0 then (0, gItems, fusedSc)
  else
    let st := (List.zip groups gItems).foldl
      (fun (st : ℚ × ℤ × List (List ℚ)) p =>
        let gp := groupFieldPass o p.1 fieldTokens
        let r := accumLoop o gp.1 gp.2 p.2 st.1 st.2.1
        (r.1, r.2.2, st.2.2 ++ [r.2.1]))
      (0, (-1 : ℤ), [])
    if o.score_test_fused then
      let n' := if o.score_acronym then fieldTokens.length - 1 else fieldTokens.length
      let fusedField := List.intercalate [' '] (fieldTokens.take (max n' 1))
      let fusedScore := scoreMap fusedStr fusedField fusedMap o + o.bonus_token_order
      (if fusedScore > st.1 then fusedScore else st.1, st.2.2,
        if fusedScore > fusedSc then fusedScore else fusedSc)
    else (st.1, st.2.2, fusedSc)

/-! ### _searchIndex (src/src/search.js lines 73-188) -/

structure Item where
  item : ℕ
  fields : List (List (List Str))
deriving Repr, DecidableEq

structure SearchResult where
  item : ℕ
  score : ℚ
  matchIndex : ℤ
  subIndex : ℤ
  sortKey : Str
deriving Repr, DecidableEq

/-- JS `Math.round` (half-up). -/
def jsRound (x : ℚ) : ℤ := ⌊x + 1/2⌋

/-- The SearchResult pushed by _searchIndex (the `fields` back-reference
is omitted; no claim touches it). -/
def mkResult (o : Options) (it : Item) (s : ℚ) (mfi mni : ℤ) : SearchResult :=
  { item := it.item
    score := (jsRound (s / o.score_round) : ℚ) * o.score_round
    matchIndex := mfi
    subIndex := mni
    sortKey := List.intercalate [' '] ((it.fields.getD 0 []).getD 0 []) }

structure NodeAcc where
  fieldScore : ℚ
  fieldNode : ℤ
  qs : QState

structure FieldAcc where
  itemScore : ℚ
  mfi : ℤ
  mni : ℤ
  posBonus : ℚ
  qs : QState
  broke : Bool

/-- Node scoring (search.js lines 115-123): per-token field scoring plus
the tag child's, or a single fused score_map when `score_per_token` is
off. -/
def nodeScore (o : Options) (q : QueryData) (fieldIndex : ℕ) (node : List Str)
    (qs : QState) : ℚ × QState :=
  if o.score_per_token then
    let r1 := scoreFieldGen o q.tokens_groups q.fused_str q.fused_map node
      qs.groups_item qs.fused_score
    let qs1 : QState := { qs with groups_item := r1.2.1, fused_score := r1.2.2 }
    match q.children.getD fieldIndex none with
    | some cq =>
      match qs1.children.getD fieldIndex none with
      | some (cgi, cf) =>
        let r2 := scoreFieldGen o cq.tokens_groups cq.fused_str cq.fused_map node cgi cf
        (r1.1 + r2.1,
          { qs1 with children := qs1.children.set fieldIndex (some (r2.2.1, r2.2.2)) })
      | none => (r1.1, qs1)
    | none => (r1.1, qs1)
  else (scoreMap q.fused_str (List.intercalate [' '] node) q.fused_map o, qs)

/-- The per-item part of the _searchIndex loop (search.js lines 90-152):
reset the query scratch, scan fields and nodes with the position bonus
and the `field_good_enough` break, then blend with Query.scoreItem when
`score_per_token` is on.  Returns
`(item_score, matched_field_index, matched_node_index)`. -/
def itemEval (o : Options) (q : QueryData) (it : Item) : ℚ × ℤ × ℤ :=
  let r := (it.fields.enum).foldl
    (fun (acc : FieldAcc) fp =>
      if acc.broke then acc
      else
        let nr := (fp.2.enum).foldl
          (fun (nacc : NodeAcc) np =>
            let ns := nodeScore o q fp.1 np.2 nacc.qs
            if ns.1 > nacc.fieldScore then
              ⟨ns.1, (np.1 : ℤ), ns.2⟩
            else
              { nacc with qs := ns.2 })
          ⟨0, -1, acc.qs⟩
        let fs := nr.fieldScore * (1 + acc.posBonus)
        let pb' := acc.posBonus * o.bonus_position_decay
        if fs > acc.itemScore then
          { itemScore := fs, mfi := (fp.1 : ℤ), mni := nr.fieldNode, posBonus := pb'
            qs := nr.qs, broke := decide (fs > o.field_good_enough) }
        else
          { acc with posBonus := pb', qs := nr.qs })
    ⟨0, -1, -1, 1, resetItem q, false⟩
  let s := if o.score_per_token then
      (1/2) * r.itemScore + (1/2) * scoreItemOf q r.qs
    else r.itemScore
  (s, r.mfi, r.mni)

structure SState where
  best : ℚ
  thresh : ℚ
  results : List SearchResult
  stopped : Bool

/-- The `thresh_include` update of _searchIndex (lines 158-162): inside
the `item_score > best_item_score` branch, raise the threshold to
`item_score · thresh_relative_to_best` when that product exceeds it. -/
def threshUpdate (o : Options) (s best thresh : ℚ) : ℚ :=
  if s > best then
    if s * o.thresh_relative_to_best > thresh then s * o.thresh_relative_to_best
    else thresh
  else thresh

/-- One iteration of the main _searchIndex loop: update
`best_item_score` and `thresh_include`, stop at `max_inners`, and push a
SearchResult when the item beats the (freshly updated) threshold. -/
def searchStep (o : Options) (q : QueryData) (st : SState) (it : Item) : SState :=
  if st.stopped then st
  else
    let ev := itemEval o q it
    let s := ev.1
    let best' := if s > st.best then s else st.best
    let thresh' := threshUpdate o s st.best st.thresh
    let reached := decide (o.max_inners ≠ 0) && decide (o.max_inners ≤ st.results.length)
    if reached then ⟨best', thresh', st.results, true⟩
    else if s > thresh' then
      ⟨best', thresh', st.results ++ [mkResult o it s ev.2.1 ev.2.2], false⟩
    else ⟨best', thresh', st.results, false⟩

/-- FuzzySearch.prototype._searchIndex: fold over the candidate list,
returning the final `thresh_include` and the pushed results. -/
def searchIndex (o : Options) (q : QueryData) (source : List Item) :
    ℚ × List SearchResult :=
  let st := source.foldl (searchStep o q) ⟨0, o.thresh_include, [], false⟩
  (st.thresh, st.results)

/-- FuzzySearch.filterGTE (output.js lines 140-153), generic in the field
projection. -/
def filterGTE {α : Type} (f : α → ℚ) (atleast : ℚ) (l : List α) : List α :=
  l.filter (fun x => f x ≥ atleast)

/-! ### The n-gram store (part_008) -/

/-- The store: an insertion-ordered map from n-gram keys to the list of
record slots registered under that key. -/
abbrev Store := List (Str × List ℕ)

/-- The `union` helper: append the key once (the `existingDict` mirrors
list membership). -/
def union1 (w : Str) (lst : List Str) : List Str :=
  if w ∈ lst then lst else lst ++ [w]

/-- All ordered 2-combinations from the first `maxlen` characters. -/
def select2 (s : Str) (maxlen : ℕ) (lst0 : List Str) : List Str :=
  let len := min s.length maxlen
  (List.range len).foldl
    (fun lst i =>
      (List.range len).foldl
        (fun lst j => if i < j then union1 [s.getD i ' ', s.getD j ' '] lst else lst)
        lst)
    lst0

/-- All ordered 3-combinations from the first `maxlen` characters. -/
def select3 (s : Str) (maxlen : ℕ) (lst0 : List Str) : List Str :=
  let len := min s.length maxlen
  (List.range len).foldl
    (fun lst i =>
      (List.range len).foldl
        (fun lst j =>
          (List.range len).foldl
            (fun lst k =>
              if i < j ∧ j < k then
                union1 [s.getD i ' ', s.getD j ' ', s.getD k ' '] lst
              else lst)
            lst)
        lst)
    lst0

def keysFromWord (w : Str) (lst : List Str) : List Str :=
  if w.length = 0 then lst
  else
    let l1 := if 3 ≤ w.length then select3 w 6 lst else lst
    let l2 := if 2 ≤ w.length then select2 w 4 l1 else l1
    union1 [w.headD ' '] l2

def keysFromIndexedItem (it : Item) : List Str :=
  it.fields.foldl
    (fun lst nodes =>
      nodes.foldl (fun lst words => words.foldl (fun lst w => keysFromWord w lst) lst) lst)
    []

/-- keysFromQuery: keys from the root query words.  (The child loop in
the source reads `for (j = 0; j < words; j++)` — comparing the counter
against the words *array* — which is false for any non-numeric word
list, so children contribute no keys.) -/
def keysFromQuery (q : QueryData) : List Str :=
  q.words.foldl (fun lst w => keysFromWord w lst) []

def storeInsertKey (k : Str) (idx : ℕ) : Store → Store
  | [] => [(k, [idx])]
  | (k', l) :: rest =>
    if k' = k then (k', l ++ [idx]) :: rest else (k', l) :: storeInsertKey k idx rest

/-- FuzzySearch.prototype._storeAdd. -/
def storeAdd (it : Item) (idx : ℕ) (s : Store) : Store :=
  (keysFromIndexedItem it).foldl (fun s k => storeInsertKey k idx s) s

/-- The store built during indexing: every record registered under its
keys, in slot order. -/
def buildStore (src : List Item) : Store :=
  (src.enum).foldl (fun s p => storeAdd p.2 p.1 s) []

def storeLookup (s : Store) (k : Str) : Option (List ℕ) :=
  match s with
  | [] => none
  | (k', l) :: rest => if k' = k then some l else storeLookup rest k

def bumpCount (idx : ℕ) : List (ℕ × ℕ) → List (ℕ × ℕ)
  | [] => [(idx, 1)]
  | (i, c) :: rest => if i = idx then (i, c + 1) :: rest else (i, c) :: bumpCount idx rest

/-- Stable insertion used to model the two orderings of retrieveCount:
JS enumerates the integer-keyed count object in ascending id order, then
sorts with the comparator `b.count - a.count`. -/
def insertBy {α : Type} (le : α → α → Bool) (x : α) : List α → List α
  | [] => [x]
  | y :: ys => if le x y then x :: y :: ys else y :: insertBy le x ys

def sortBy {α : Type} (le : α → α → Bool) (l : List α) : List α :=
  l.foldr (insertBy le) []

/-- retrieveCount (part_008 lines 160-211): count, per record slot, how
many query keys hit it; return `(id, count)` pairs sorted by decreasing
count. -/
def retrieveCount (keys : List Str) (store : Store) : List (ℕ × ℕ) :=
  if keys = [] then []
  else
    let counts := keys.foldl
      (fun acc k =>
        match storeLookup store k with
        | none => acc
        | some l => l.foldl (fun acc i => bumpCount i acc) acc)
      []
    sortBy (fun a b => decide (b.2 ≤ a.2))
      (sortBy (fun a b => decide (a.1 ≤ b.1)) counts)

/-- FuzzySearch.prototype._storeSearch: keep the slots whose key count
reaches `store_thresh` times the best count and map them back to source
records.  (No `store_max_results` cap appears in this function.) -/
def storeSearch (o : Options) (q : QueryData) (store : Store) (source : List Item) :
    List Item :=
  let keyList := keysFromQuery q
  if keyList = [] then []
  else
    let iac := retrieveCount keyList store
    if iac = [] then []
    else
      let tresh := ((iac.headD (0, 0)).2 : ℚ) * o.store_thresh
      let kept := filterGTE (fun x => ((x.2 : ℕ) : ℚ)) tresh iac
      kept.map (fun x => source.getD x.1 ⟨0, []⟩)

/-- Modelled from the spec: the caller that wires `_storeSearch` into
`search` is not under src/ (only `_storeSearch` itself and the
`use_index_store` option declaration are).  Per spec §2 and §4.9, with
the store enabled the candidate list handed to the main search loop is
`_storeSearch`'s result, otherwise it is the whole index; the search
then filters the pushed results by the returned threshold
(`FuzzySearch.filterGTE(results, "score", thresh_include)`).  The sort
that follows only permutes the results and the default output mapping is
the identity, so the returned record set is the mapped filter below. -/
def searchTopRecords (o : Options) (q : QueryData) (source : List Item)
    (useStore : Bool) (store : Store) : List ℕ :=
  let cands := if useStore then storeSearch o q store source else source
  let r := searchIndex o q cands
  (filterGTE (fun s => s.score) r.1 r.2).map (fun s => s.item)

/-! ### Claim C9: monotone inclusion threshold -/

theorem threshUpdate_le (o : Options) (s best thresh : ℚ) :
    thresh ≤ threshUpdate o s best thresh := by
  unfold threshUpdate
  split_ifs with h1 h2
  · exact le_of_lt h2
  · exact le_rfl
  · exact le_rfl

theorem threshUpdate_cases (o : Options) (s best thresh : ℚ) :
    threshUpdate o s best thresh = thresh ∨
      (threshUpdate o s best thresh = s * o.thresh_relative_to_best ∧
        thresh < s * o.thresh_relative_to_best) := by
  unfold threshUpdate
  split_ifs with h1 h2
  · exact Or.inr ⟨rfl, h2⟩
  · exact Or.inl rfl
  · exact Or.inl rfl

theorem searchStep_thresh (o : Options) (q : QueryData) (st : SState) (it : Item) :
    (searchStep o q st it).thresh =
      if st.stopped then st.thresh
      else threshUpdate o (itemEval o q it).1 st.best st.thresh := by
  unfold searchStep
  split_ifs with h1
  · rfl
  · simp only
    split_ifs <;> rfl

theorem searchStep_thresh_le (o : Options) (q : QueryData) (st : SState) (it : Item) :
    st.thresh ≤ (searchStep o q st it).thresh := by
  rw [searchStep_thresh]
  split_ifs with h1
  · exact le_rfl
  · exact threshUpdate_le o _ st.best st.thresh

theorem foldl_thresh_le (o : Options) (q : QueryData) (l : List Item) (st : SState) :
    st.thresh ≤ (l.foldl (searchStep o q) st).thresh := by
  induction l generalizing st with
  | nil => exact le_rfl
  | cons it rest ih =>
    exact le_trans (searchStep_thresh_le o q st it) (ih (searchStep o q st it))

/-- C9.  Within one _searchIndex call the inclusion threshold is
monotonically non-decreasing: it starts at `options.thresh_include`,
each record leaves it unchanged or raises it exactly to
`item_score · thresh_relative_to_best` (and only when that product
exceeds the current value), and the returned threshold is at least the
starting one. -/
theorem C9_thresh_monotone (o : Options) (q : QueryData) :
    (∀ (st : SState) (it : Item),
      st.thresh ≤ (searchStep o q st it).thresh ∧
      (st.stopped = false →
        ((searchStep o q st it).thresh = st.thresh ∨
          ((searchStep o q st it).thresh =
              (itemEval o q it).1 * o.thresh_relative_to_best ∧
            st.thresh < (itemEval o q it).1 * o.thresh_relative_to_best)))) ∧
    (∀ source : List Item, o.thresh_include ≤ (searchIndex o q source).1) := by
  constructor
  · intro st it
    refine ⟨searchStep_thresh_le o q st it, ?_⟩
    intro hstop
    rw [searchStep_thresh, hstop]
    simpa using threshUpdate_cases o (itemEval o q it).1 st.best st.thresh
  · intro source
    exact foldl_thresh_le o q source ⟨0, o.thresh_include, [], false⟩

/-- Witness for C9 on a one-record source with default options. -/
theorem C9_thresh_monotone_witness :
    ((searchStep { : Options} ⟨[], [], [], .bit (fun _ => 0), false, []⟩
        ⟨0, 2, [], false⟩ ⟨0, [[[['a']]]]⟩).thresh ≥ 2) ∧
    ({ : Options}.thresh_include ≤
      (searchIndex { : Options} ⟨[], [], [], .bit (fun _ => 0), false, []⟩
        [⟨0, [[[['a']]]]⟩]).1) :=
  ⟨(C9_thresh_monotone { : Options} ⟨[], [], [], .bit (fun _ => 0), false, []⟩).1
      ⟨0, 2, [], false⟩ ⟨0, [[[['a']]]]⟩ |>.1,
    (C9_thresh_monotone { : Options} ⟨[], [], [], .bit (fun _ => 0), false, []⟩).2
      [⟨0, [[[['a']]]]⟩]⟩

/-! ### Claim C8: the store pre-filter versus the full scan -/

theorem threshUpdate_trb0 (o : Options) (h1 : o.thresh_relative_to_best = 0)
    (h3 : 0 ≤ o.thresh_include) (s best : ℚ) :
    threshUpdate o s best o.thresh_include = o.thresh_include := by
  unfold threshUpdate
  rw [h1, mul_zero]
  split_ifs with ha hb
  · exact absurd hb (not_lt.mpr h3)
  · rfl
  · rfl

/-- With `thresh_relative_to_best = 0`, no `max_inners` cap and a
non-negative starting threshold, the main loop treats every item
independently: the threshold never moves and the pushed results are
exactly the items whose score beats it, in order. -/
theorem foldl_searchStep_const (o : Options) (q : QueryData)
    (h1 : o.thresh_relative_to_best = 0) (h2 : o.max_inners = 0)
    (h3 : 0 ≤ o.thresh_include) :
    ∀ (l : List Item) (st : SState), st.thresh = o.thresh_include →
      st.stopped = false →
      (l.foldl (searchStep o q) st).thresh = o.thresh_include ∧
      (l.foldl (searchStep o q) st).results = st.results ++
        (l.filter (fun it => decide ((itemEval o q it).1 > o.thresh_include))).map
          (fun it => mkResult o it (itemEval o q it).1
            (itemEval o q it).2.1 (itemEval o q it).2.2) ∧
      (l.foldl (searchStep o q) st).stopped = false := by
  intro l
  induction l with
  | nil =>
    intro st hth hstop
    simp [hth, hstop]
  | cons it rest ih =>
    intro st hth hstop
    have hreach : (decide (o.max_inners ≠ 0) && decide (o.max_inners ≤ st.results.length)) = false := by
      simp [h2]
    have hstep : searchStep o q st it =
        ⟨if (itemEval o q it).1 > st.best then (itemEval o q it).1 else st.best,
          o.thresh_include,
          st.results ++
            (if (itemEval o q it).1 > o.thresh_include then
              [mkResult o it (itemEval o q it).1 (itemEval o q it).2.1 (itemEval o q it).2.2]
            else []),
          false⟩ := by
      unfold searchStep
      rw [hstop]
      simp only [Bool.false_eq_true, if_false, hth,
        threshUpdate_trb0 o h1 h3 (itemEval o q it).1 st.best, hreach]
      split_ifs <;> simp
    rw [List.foldl_cons, hstep]
    obtain ⟨iha, ihb, ihc⟩ := ih ⟨_, _, _, _⟩ rfl rfl
    refine ⟨iha, ?_, ihc⟩
    rw [ihb]
    by_cases hC : (itemEval o q it).1 > o.thresh_include
    · simp [List.filter_cons, hC, List.append_assoc]
    · simp [List.filter_cons, hC]

theorem searchIndex_const (o : Options) (q : QueryData)
    (h1 : o.thresh_relative_to_best = 0) (h2 : o.max_inners = 0)
    (h3 : 0 ≤ o.thresh_include) (l : List Item) :
    searchIndex o q l = (o.thresh_include,
      (l.filter (fun it => decide ((itemEval o q it).1 > o.thresh_include))).map
        (fun it => mkResult o it (itemEval o q it).1
          (itemEval o q it).2.1 (itemEval o q it).2.2)) := by
  obtain ⟨ha, hb, _⟩ := foldl_searchStep_const o q h1 h2 h3 l
    ⟨0, o.thresh_include, [], false⟩ rfl rfl
  unfold searchIndex
  simp only
  rw [ha, hb]
  simp

end FuzzyVerify
